import Mathlib

/-!
Verification development for the block-packed bit vector (BitVector.h) and the
extraction limit check (Extract.cc).

The bit vector stores bits in fixed-width unsigned words ("blocks"); machine
words are embedded as natural numbers kept below `2 ^ bits_per_block`, with
wrap-around written explicitly as `% 2 ^ bits_per_block` where the C++
arithmetic can overflow.  Fallible steps (reading the last element of an empty
block sequence, rejecting malformed serialized data) return `Option`.
-/

/-- Modelled from the spec: `bits_per_block` is a fixed constant of the type
(only declared in the header); the spec pins storage and serialization to one
fixed block width and recommends 64 bits. -/
def bits_per_block : Nat := 64

/-- Modelled from the spec: the sentinel "not found" index `npos`, the largest
value of the 64-bit size type (only declared in the header). -/
def npos : Nat := 2 ^ 64 - 1

/-- The bit-vector state: the storage block sequence `bits_` and the logical
bit count `num_bits_` of the source class. -/
structure BitVector where
  bits : List Nat
  num_bits : Nat
  deriving DecidableEq, Repr

/-- `BitVector::block_index`: `i / bits_per_block`. -/
def block_index (i : Nat) : Nat := i / bits_per_block

/-- `BitVector::bit_index`: `i % bits_per_block`. -/
def bit_index (i : Nat) : Nat := i % bits_per_block

/-- `BitVector::bit_mask`: `block_type(1) << bit_index(i)`. -/
def bit_mask (i : Nat) : Nat := 1 <<< bit_index i

/-- `BitVector::bits_to_blocks`:
`bits / bits_per_block + (bits % bits_per_block != 0)`. -/
def bits_to_blocks (bits : Nat) : Nat :=
  bits / bits_per_block + (if bits % bits_per_block ≠ 0 then 1 else 0)

/-- Modelled from the spec: `extra_bits()` (declared in the header, body not in
the sampled sources) is the number of unused high bits of the final block,
`(bits_per_block - length % bits_per_block) % bits_per_block` (§4.1). -/
def extra_bits (v : BitVector) : Nat :=
  (bits_per_block - v.num_bits % bits_per_block) % bits_per_block

/-- Modelled from the spec: the const `operator[]` (declared in the header,
body not in the sampled sources) reads `bits_[block_index(i)] & bit_mask(i)`;
an index outside the stored blocks reads 0. -/
def bitAt (v : BitVector) (i : Nat) : Bool :=
  Nat.testBit (v.bits.getD (block_index i) 0) (bit_index i)

/-- The do-while loop of `BitVector::append(first, last)`: for each incoming
block `y` it pushes `y >> (bits_per_block - excess)` combined with the low
bits of the following block shifted up by `excess` (0 when `y` is the last
incoming block).  The C++ shifts act on a 64-bit word, hence the explicit
`% 2 ^ bits_per_block` on the left shift. -/
def mergeLoop (excess : Nat) : List Nat → List Nat
  | [] => []
  | [y] => [y >>> (bits_per_block - excess)]
  | y :: y2 :: rest =>
      ((y >>> (bits_per_block - excess)) ||| ((y2 <<< excess) % 2 ^ bits_per_block))
        :: mergeLoop excess (y2 :: rest)

/-- The merge branch of `BitVector::append(first, last)`: it first ORs
`*first << excess` into `bits_.back()` and then runs the do-while loop.
`none` models the out-of-bounds `bits_.back()` access on an empty block
sequence. -/
def appendMerge (excess : Nat) (bits bs : List Nat) : Option (List Nat) :=
  match bits.getLast? with
  | none => none
  | some lastB =>
      some (bits.dropLast
        ++ [lastB ||| ((bs.headD 0 <<< excess) % 2 ^ bits_per_block)]
        ++ mergeLoop excess bs)

/-- `BitVector::append(first, last)` as written in the header: an empty range
is a no-op; when `extra_bits() == 0` the code takes the merge branch (reading
`bits_.back()` and shifting by `bits_per_block - excess`); otherwise it inserts
the incoming blocks verbatim; finally `num_bits_ += bits_per_block * delta`. -/
def BitVector.append (v : BitVector) (bs : List Nat) : Option BitVector :=
  if bs = [] then some v
  else if extra_bits v = 0 then
    (appendMerge (extra_bits v) v.bits bs).map
      (fun nb => { bits := nb, num_bits := v.num_bits + bits_per_block * bs.length })
  else
    some { bits := v.bits ++ bs, num_bits := v.num_bits + bits_per_block * bs.length }

/-- Invariant: every bit position of the stored blocks at or above the logical
length reads 0 (the excess bits of the final block are zero). -/
def ZeroPadded (v : BitVector) : Prop :=
  ∀ i < v.bits.length * bits_per_block, v.num_bits ≤ i → bitAt v i = false

/-- Invariant: every stored block fits in a machine word. -/
def BlocksBounded (v : BitVector) : Prop :=
  ∀ b ∈ v.bits, b < 2 ^ bits_per_block

/-- The representation invariants of a bit vector: the block count matches the
logical length and every block is a machine word with zero excess bits. -/
def Valid (v : BitVector) : Prop :=
  v.bits.length = bits_to_blocks v.num_bits ∧ BlocksBounded v ∧ ZeroPadded v

instance (v : BitVector) : Decidable (ZeroPadded v) := by
  unfold ZeroPadded; infer_instance

instance (v : BitVector) : Decidable (BlocksBounded v) := by
  unfold BlocksBounded; infer_instance

instance (v : BitVector) : Decidable (Valid v) := by
  unfold Valid; infer_instance

/-- Masks the final element of a block list to its low `k` bits, leaving all
other elements unchanged. -/
def maskLast (k : Nat) : List Nat → List Nat
  | [] => []
  | [b] => [b % 2 ^ k]
  | b :: b2 :: rest => b :: maskLast k (b2 :: rest)

/-- Modelled from the spec: `zero_unused_bits()` (declared in the header, body
not in the sampled sources) clears the excess bits of the final block when the
length is not a multiple of the block width (§4.1): the final block keeps its
low `length % bits_per_block` bits. -/
def zero_unused_bits (v : BitVector) : BitVector :=
  if v.num_bits % bits_per_block = 0 then v
  else { bits := maskLast (v.num_bits % bits_per_block) v.bits, num_bits := v.num_bits }

/-- Modelled from the spec: `Serialize` (declared in the header, body not in
the sampled sources) emits the logical bit count followed by the block
sequence (§4.7, §6). -/
def BitVector.Serialize (v : BitVector) : Nat × List Nat :=
  (v.num_bits, v.bits)

/-- Modelled from the spec: `Unserialize` (declared in the header, body not in
the sampled sources) reads the length and the block sequence, fails when the
block count does not match the count derived from the declared length (a
truncated or overlong stream), and re-establishes the zero-padding invariant
on the reconstructed vector (§4.7, §6). -/
def BitVector.Unserialize (data : Nat × List Nat) : Option BitVector :=
  if data.2.length = bits_to_blocks data.1 then
    some (zero_unused_bits { bits := data.2, num_bits := data.1 })
  else none

/-- Little-endian interpretation of a list of bits as a natural number. -/
def bitsToNat : List Bool → Nat
  | [] => 0
  | b :: rest => (if b then 1 else 0) + 2 * bitsToNat rest

/-- The block whose bit `k` is `f (base + k)`, for `k < bits_per_block`. -/
def blockOfBits (f : Nat → Bool) (base : Nat) : Nat :=
  bitsToNat ((List.range bits_per_block).map (fun k => f (base + k)))

/-- The bit vector of length `len` whose bit `i` is `f i`; positions of the
final block at or beyond `len` must be made 0 by `f` itself. -/
def ofBitFun (f : Nat → Bool) (len : Nat) : BitVector :=
  { bits := (List.range (bits_to_blocks len)).map (fun j => blockOfBits f (bits_per_block * j)),
    num_bits := len }

/-- Modelled from the spec: left shift by `n` (declared in the header, body
not in the sampled sources) moves bit `i - n` of the source to bit `i`, fills
vacated low positions with 0, discards bits beyond the length, keeps the
length, and restores the zero-padding invariant (§4.4). -/
def shiftL (v : BitVector) (n : Nat) : BitVector :=
  ofBitFun (fun i => decide (i < v.num_bits) && decide (n ≤ i) && bitAt v (i - n)) v.num_bits

/-- Modelled from the spec: right shift by `n` (declared in the header, body
not in the sampled sources) moves bit `i + n` of the source to bit `i`, fills
vacated high positions with 0, keeps the length, and restores the
zero-padding invariant (§4.4). -/
def shiftR (v : BitVector) (n : Nat) : BitVector :=
  ofBitFun (fun i => decide (i < v.num_bits) && decide (i + n < v.num_bits) && bitAt v (i + n)) v.num_bits

/-- The all-zero bit vector of a given length. -/
def zeroVector (len : Nat) : BitVector :=
  { bits := List.replicate (bits_to_blocks len) 0, num_bits := len }

/-- Fuel-driven upward scan: the first index `j ≤ k < num_bits` with bit `k`
set, or `npos`; the fuel bounds the number of inspected positions. -/
def scanUp (v : BitVector) : Nat → Nat → Nat
  | _, 0 => npos
  | j, fuel + 1 =>
      if v.num_bits ≤ j then npos
      else if bitAt v j then j else scanUp v (j + 1) fuel

/-- Modelled from the spec: `find_next(i)` (declared in the header, body not
in the sampled sources) returns the lowest index greater than `i` whose bit is
set, or `npos` when none exists (§4.6). -/
def find_next (v : BitVector) (i : Nat) : Nat :=
  scanUp v (i + 1) (v.num_bits - (i + 1))

/-- `check_limit_exceeded` from Extract.cc; the out-parameter `*n` is the
second component of the result.  All quantities are `uint64_t`, so the sum
`depth + len` wraps modulo `2 ^ 64`. -/
def check_limit_exceeded (lim depth len : Nat) : Bool × Nat :=
  if lim = 0 then (false, len)
  else if lim ≤ depth then (true, 0)
  else if lim < (depth + len) % 2 ^ 64 then (true, lim - depth)
  else (false, len)

/-! ### Helper lemmas -/

theorem maskLast_length (k : Nat) : ∀ l : List Nat, (maskLast k l).length = l.length
  | [] => rfl
  | [_] => rfl
  | _ :: b2 :: rest => by
      simp only [maskLast, List.length_cons, maskLast_length k (b2 :: rest)]

theorem maskLast_eq_self (k : Nat) :
    ∀ l : List Nat, (∀ z, l.getLast? = some z → z < 2 ^ k) → maskLast k l = l
  | [], _ => rfl
  | [b], h => by
      simp only [maskLast, Nat.mod_eq_of_lt (h b rfl)]
  | b :: b2 :: rest, h => by
      simp only [maskLast]
      exact congrArg (b :: ·)
        (maskLast_eq_self k (b2 :: rest)
          (fun z hz => h z (by simpa using hz)))

theorem maskLast_getD (k d : Nat) :
    ∀ (l : List Nat) (n : Nat),
      (maskLast k l).getD n d = if n + 1 = l.length then l.getD n d % 2 ^ k else l.getD n d
  | [], n => by simp [maskLast]
  | [b], n => by
      cases n with
      | zero => simp [maskLast]
      | succ m => simp [maskLast]
  | b :: b2 :: rest, n => by
      cases n with
      | zero => simp [maskLast]
      | succ m => simpa [maskLast] using maskLast_getD k d (b2 :: rest) m

theorem maskLast_bounded (k c : Nat) :
    ∀ l : List Nat, (∀ b ∈ l, b < c) → ∀ b ∈ maskLast k l, b < c
  | [], _, b, hb => by simp [maskLast] at hb
  | [x], h, b, hb => by
      simp only [maskLast, List.mem_singleton] at hb
      subst hb
      exact Nat.lt_of_le_of_lt (Nat.mod_le x (2 ^ k)) (h x (by simp))
  | x :: x2 :: rest, h, b, hb => by
      simp only [maskLast, List.mem_cons] at hb
      rcases hb with rfl | hb
      · exact h b (by simp)
      · exact maskLast_bounded k c (x2 :: rest)
          (fun y hy => h y (List.mem_cons_of_mem x hy)) b hb

theorem getD_last_of_getLast? (d : Nat) :
    ∀ (l : List Nat) (z : Nat), l.getLast? = some z → l.getD (l.length - 1) d = z
  | [], z, h => by simp at h
  | [b], z, h => by
      simp only [List.getLast?_singleton, Option.some.injEq] at h
      simpa using h
  | b :: b2 :: rest, z, h => by
      have hrec := getD_last_of_getLast? d (b2 :: rest) z (by simpa using h)
      simpa [List.getD_cons_succ] using hrec

/-! ### C7 -/

/-- C7: `bits_to_blocks(n)` is the ceiling of `n / bits_per_block`: it equals
`(n + bits_per_block - 1) / bits_per_block`, which is `n / bits_per_block`
when `n` is a multiple of the block width and `n / bits_per_block + 1`
otherwise. -/
theorem bits_to_blocks_is_ceil (n : Nat) :
    bits_to_blocks n = (n + (bits_per_block - 1)) / bits_per_block
      ∧ (n % bits_per_block = 0 → bits_to_blocks n = n / bits_per_block)
      ∧ (n % bits_per_block ≠ 0 → bits_to_blocks n = n / bits_per_block + 1) := by
  simp only [bits_to_blocks, bits_per_block]
  by_cases h : n % 64 = 0 <;> simp [h] <;> omega

/-- Witness for C7 at `n = 65`. -/
theorem bits_to_blocks_is_ceil_witness :
    bits_to_blocks 65 = 65 / bits_per_block + 1 :=
  (bits_to_blocks_is_ceil 65).2.2 (by decide)

/-! ### C1 -/

/-- C1 fails on the code: on the vector of 64 zero bits (one full block, zero
excess bits) the source `append` takes the shift-merge branch instead of
appending directly, so appending the single block `1` merges it into the
existing last block and pushes a zero remainder block, instead of producing
the direct append `[0, 1]`. -/
theorem append_branch_inverted_eval :
    BitVector.append { bits := [0], num_bits := 64 } [1]
        = some { bits := [1, 0], num_bits := 128 }
      ∧ ({ bits := [1, 0], num_bits := 128 } : BitVector)
          ≠ { bits := [0, 1], num_bits := 128 } := by
  decide

/-! ### C2 -/

/-- C2 fails on the code: starting from the valid one-bit vector, appending
the block `2 ^ 63` takes the verbatim-insert branch (because the excess is
nonzero), which leaves bit 127 set while the new length is 65, violating the
zero-padding invariant. -/
theorem append_breaks_zero_padding_eval :
    Valid { bits := [0], num_bits := 1 }
      ∧ BitVector.append { bits := [0], num_bits := 1 } [2 ^ 63]
          = some { bits := [0, 2 ^ 63], num_bits := 65 }
      ∧ ¬ Valid { bits := [0, 2 ^ 63], num_bits := 65 } := by
  refine ⟨by decide, by decide, ?_⟩
  intro hV
  have h := hV.2.2 127 (by decide) (by decide)
  rw [show bitAt { bits := [0, 2 ^ 63], num_bits := 65 } 127 = true from by decide] at h
  simp at h

/-! ### C8 -/

/-- C8: whenever the excess is zero and the range is nonempty, `append` runs
the merge branch (the one that reads `bits_.back()` and right-shifts each
incoming block by the full block width); on an empty block sequence that
`back()` access has no element to read, so the error branch is reachable. -/
theorem append_zero_excess_reads_back (v : BitVector) (bs : List Nat)
    (h1 : extra_bits v = 0) (h2 : bs ≠ []) :
    v.append bs
        = (appendMerge (extra_bits v) v.bits bs).map
            (fun nb => { bits := nb, num_bits := v.num_bits + bits_per_block * bs.length })
      ∧ (v.bits = [] → v.append bs = none) := by
  constructor
  · unfold BitVector.append
    rw [if_neg h2, if_pos h1]
  · intro hnil
    unfold BitVector.append appendMerge
    rw [if_neg h2, if_pos h1, hnil]
    rfl

/-- Witness for C8: appending one block to the default-constructed empty
vector (excess zero) hits the error branch. -/
theorem append_zero_excess_reads_back_witness :
    BitVector.append { bits := [], num_bits := 0 } [5] = none :=
  (append_zero_excess_reads_back { bits := [], num_bits := 0 } [5]
    (by decide) (by decide)).2 rfl

/-! ### C9 -/

/-- C9: whenever `append(first, last)` completes, the logical length grows by
exactly `bits_per_block` times the number of appended blocks, so the excess
bit count is unchanged. -/
theorem append_adds_block_multiple (v : BitVector) (bs : List Nat) (w : BitVector)
    (h : v.append bs = some w) :
    w.num_bits = v.num_bits + bits_per_block * bs.length
      ∧ extra_bits w = extra_bits v := by
  have hnum : w.num_bits = v.num_bits + bits_per_block * bs.length := by
    unfold BitVector.append at h
    by_cases hbs : bs = []
    · subst hbs
      rw [if_pos rfl] at h
      cases h
      simp
    · rw [if_neg hbs] at h
      by_cases hex : extra_bits v = 0
      · rw [if_pos hex] at h
        rcases Option.map_eq_some'.mp h with ⟨nb, _, hw⟩
        rw [← hw]
      · rw [if_neg hex] at h
        cases h
        rfl
  refine ⟨hnum, ?_⟩
  unfold extra_bits bits_per_block
  rw [hnum]
  unfold bits_per_block
  omega

/-- Witness for C9: appending one block to the one-bit vector. -/
theorem append_adds_block_multiple_witness :
    ({ bits := [0, 5], num_bits := 65 } : BitVector).num_bits
        = ({ bits := [0], num_bits := 1 } : BitVector).num_bits
            + bits_per_block * ([5] : List Nat).length
      ∧ extra_bits { bits := [0, 5], num_bits := 65 }
          = extra_bits { bits := [0], num_bits := 1 } :=
  append_adds_block_multiple { bits := [0], num_bits := 1 } [5]
    { bits := [0, 5], num_bits := 65 } (by decide)

/-! ### C3 -/

theorem last_block_lt (v : BitVector) (hV : Valid v)
    (hmod : v.num_bits % bits_per_block ≠ 0)
    (z : Nat) (hz : v.bits.getLast? = some z) :
    z < 2 ^ (v.num_bits % bits_per_block) := by
  simp only [bits_per_block] at hmod ⊢
  apply Nat.lt_pow_two_of_testBit
  intro j hj
  by_cases hj64 : j < 64
  · have hlen : v.bits.length = v.num_bits / 64 + 1 := by
      rw [hV.1]
      simp [bits_to_blocks, bits_per_block, hmod]
    have hgd : v.bits.getD (v.num_bits / 64) 0 = z := by
      have h0 := getD_last_of_getLast? 0 v.bits z hz
      rw [hlen] at h0
      simpa using h0
    have hpad := hV.2.2 (64 * (v.num_bits / 64) + j)
      (by rw [hlen]; simp only [bits_per_block]; omega)
      (by omega)
    unfold bitAt block_index bit_index at hpad
    simp only [bits_per_block] at hpad
    rw [show (64 * (v.num_bits / 64) + j) / 64 = v.num_bits / 64 from by omega,
        show (64 * (v.num_bits / 64) + j) % 64 = j from by omega,
        hgd] at hpad
    exact hpad
  · have hb : z < 2 ^ 64 := by
      have hmem := hV.2.1 z (List.mem_of_getLast?_eq_some hz)
      simpa [bits_per_block] using hmem
    exact Nat.testBit_lt_two_pow
      (lt_of_lt_of_le hb (Nat.pow_le_pow_right (by norm_num) (by omega)))

/-- C3: deserializing the serialization of any structurally valid bit vector
returns exactly that vector (same length and same block sequence). -/
theorem serialize_roundtrip (v : BitVector) (h : Valid v) :
    BitVector.Unserialize v.Serialize = some v := by
  unfold BitVector.Serialize BitVector.Unserialize
  rw [if_pos h.1]
  congr 1
  unfold zero_unused_bits
  by_cases hmod : v.num_bits % bits_per_block = 0
  · rw [if_pos hmod]
  · rw [if_neg hmod]
    have hm : maskLast (v.num_bits % bits_per_block) v.bits = v.bits := by
      apply maskLast_eq_self
      intro z hz
      exact last_block_lt v h hmod z hz
    rw [hm]

/-- Witness for C3 on a two-block vector of length 70. -/
theorem serialize_roundtrip_witness :
    BitVector.Unserialize (BitVector.Serialize { bits := [3, 1], num_bits := 70 })
      = some { bits := [3, 1], num_bits := 70 } :=
  serialize_roundtrip { bits := [3, 1], num_bits := 70 } (by decide)

/-! ### C4 -/

theorem zero_unused_valid (len : Nat) (blks : List Nat)
    (hb : ∀ b ∈ blks, b < 2 ^ bits_per_block)
    (hlen : blks.length = bits_to_blocks len) :
    Valid (zero_unused_bits { bits := blks, num_bits := len }) := by
  unfold zero_unused_bits Valid BlocksBounded ZeroPadded
  by_cases hmod : len % bits_per_block = 0
  · rw [if_pos hmod]
    simp only [bits_per_block] at hmod
    refine ⟨hlen, hb, ?_⟩
    intro i hi hle
    exfalso
    dsimp only at hi hle
    rw [hlen] at hi
    simp only [bits_to_blocks, bits_per_block, hmod] at hi
    simp at hi
    omega
  · rw [if_neg hmod]
    simp only [bits_per_block] at hmod
    have hL : blks.length = len / 64 + 1 := by
      rw [hlen]
      simp [bits_to_blocks, bits_per_block, hmod]
    refine ⟨by simpa [maskLast_length] using hlen, ?_, ?_⟩
    · intro b hbm
      exact maskLast_bounded _ _ blks hb b hbm
    · intro i hi hle
      dsimp only at hi hle ⊢
      rw [maskLast_length] at hi
      unfold bitAt block_index bit_index
      dsimp only
      simp only [bits_per_block] at hi ⊢
      rw [hL] at hi
      have hdiv : i / 64 = len / 64 := by omega
      have hmodi : len % 64 ≤ i % 64 := by omega
      rw [maskLast_getD, if_pos (by rw [hdiv, hL] : i / 64 + 1 = blks.length)]
      rw [Nat.testBit_mod_two_pow]
      have hnlt : ¬ (i % 64 < len % 64) := by omega
      simp [hnlt]

/-- C4: `Unserialize` fails whenever the supplied block count does not match
the count derived from the declared length (covering truncated streams), and
on success it only ever produces a vector satisfying all representation
invariants; on failure it produces the no-value outcome. -/
theorem unserialize_error_handling (len : Nat) (blks : List Nat)
    (hb : ∀ b ∈ blks, b < 2 ^ bits_per_block) :
    (blks.length ≠ bits_to_blocks len → BitVector.Unserialize (len, blks) = none)
      ∧ (∀ v, BitVector.Unserialize (len, blks) = some v → Valid v) := by
  constructor
  · intro hne
    unfold BitVector.Unserialize
    rw [if_neg hne]
  · intro v hv
    unfold BitVector.Unserialize at hv
    by_cases hlen : blks.length = bits_to_blocks len
    · rw [if_pos hlen] at hv
      injection hv with h
      subst h
      exact zero_unused_valid len blks hb hlen
    · rw [if_neg hlen] at hv
      exact Option.noConfusion hv

/-- Witness for C4: a declared length of 70 with three supplied blocks is
inconsistent (70 bits need two blocks) and is rejected. -/
theorem unserialize_error_handling_witness :
    BitVector.Unserialize (70, [1, 2, 3]) = none :=
  (unserialize_error_handling 70 [1, 2, 3] (by decide)).1 (by decide)

/-! ### C5 -/

theorem bitsToNat_eq_zero (l : List Bool) (h : ∀ b ∈ l, b = false) :
    bitsToNat l = 0 := by
  induction l with
  | nil => rfl
  | cons b rest ih =>
      have hb : b = false := h b (by simp)
      have hrest : bitsToNat rest = 0 := ih (fun x hx => h x (List.mem_cons_of_mem b hx))
      simp [bitsToNat, hb, hrest]

theorem blockOfBits_eq_zero (f : Nat → Bool) (base : Nat) (h : ∀ i, f i = false) :
    blockOfBits f base = 0 := by
  unfold blockOfBits
  apply bitsToNat_eq_zero
  intro b hb
  rcases List.mem_map.mp hb with ⟨k, _, rfl⟩
  exact h (base + k)

theorem ofBitFun_zero (f : Nat → Bool) (len : Nat) (h : ∀ i, f i = false) :
    ofBitFun f len = zeroVector len := by
  unfold ofBitFun zeroVector
  congr 1
  rw [List.eq_replicate_iff]
  refine ⟨by simp, ?_⟩
  intro b hb
  rcases List.mem_map.mp hb with ⟨j, _, rfl⟩
  exact blockOfBits_eq_zero f _ h

/-- C5: shifting (in either direction) by an amount at least the length
yields the all-zero vector of the same length. -/
theorem shift_ge_length_yields_zero (v : BitVector) (n : Nat)
    (h : v.num_bits ≤ n) :
    shiftL v n = zeroVector v.num_bits ∧ shiftR v n = zeroVector v.num_bits := by
  constructor
  · unfold shiftL
    apply ofBitFun_zero
    intro i
    by_cases h1 : i < v.num_bits
    · have h2 : ¬ (n ≤ i) := by omega
      simp [h2]
    · simp [h1]
  · unfold shiftR
    apply ofBitFun_zero
    intro i
    by_cases h1 : i < v.num_bits
    · have h2 : ¬ (i + n < v.num_bits) := by omega
      simp [h2]
    · simp [h1]

/-- Witness for C5: a three-bit vector shifted by its length. -/
theorem shift_ge_length_yields_zero_witness :
    shiftL { bits := [5], num_bits := 3 } 3 = zeroVector 3
      ∧ shiftR { bits := [5], num_bits := 3 } 3 = zeroVector 3 :=
  shift_ge_length_yields_zero { bits := [5], num_bits := 3 } 3 (by decide)

/-! ### C6 -/

theorem scanUp_spec (v : BitVector) (hnp : v.num_bits ≤ npos) (fuel : Nat) :
    ∀ j, v.num_bits ≤ j + fuel →
      (scanUp v j fuel ≠ npos →
          j ≤ scanUp v j fuel ∧ scanUp v j fuel < v.num_bits
            ∧ bitAt v (scanUp v j fuel) = true
            ∧ ∀ k, j ≤ k → k < scanUp v j fuel → bitAt v k = false)
        ∧ (scanUp v j fuel = npos → ∀ k, j ≤ k → k < v.num_bits → bitAt v k = false) := by
  induction fuel with
  | zero =>
      intro j hfj
      constructor
      · intro hne
        exact absurd rfl hne
      · intro _ k hk1 hk2
        omega
  | succ fuel ih =>
      intro j hfj
      unfold scanUp
      by_cases hj : v.num_bits ≤ j
      · rw [if_pos hj]
        constructor
        · intro hne
          exact absurd rfl hne
        · intro _ k hk1 hk2
          omega
      · rw [if_neg hj]
        by_cases hbit : bitAt v j = true
        · rw [if_pos hbit]
          constructor
          · intro _
            refine ⟨Nat.le_refl j, by omega, hbit, ?_⟩
            intro k hk1 hk2
            omega
          · intro hjnp
            exfalso
            have : j < npos := Nat.lt_of_lt_of_le (by omega) hnp
            omega
        · rw [if_neg hbit]
          have hrec := ih (j + 1) (by omega)
          constructor
          · intro hne
            obtain ⟨h1, h2, h3, h4⟩ := hrec.1 hne
            refine ⟨by omega, h2, h3, ?_⟩
            intro k hk1 hk2
            rcases Nat.eq_or_lt_of_le hk1 with heq | hlt
            · rw [← heq]
              exact Bool.not_eq_true _ ▸ (by simpa using hbit)
            · exact h4 k (by omega) hk2
          · intro hnps k hk1 hk2
            rcases Nat.eq_or_lt_of_le hk1 with heq | hlt
            · rw [← heq]
              simpa using hbit
            · exact hrec.2 hnps k (by omega) hk2

/-- C6: `find_next(i)` returns the lowest index strictly greater than `i`
whose bit is 1, or `npos` when no such bit exists; moreover
`find_next(length - 1)` and `find_next(npos)` return `npos` rather than
wrapping or underflowing.  The hypothesis `num_bits ≤ npos` reflects that the
length is stored in the same 64-bit size type as `npos`. -/
theorem find_next_correct (v : BitVector) (i : Nat) (hnp : v.num_bits ≤ npos) :
    (find_next v i ≠ npos →
        i < find_next v i ∧ find_next v i < v.num_bits
          ∧ bitAt v (find_next v i) = true
          ∧ ∀ k, i < k → k < find_next v i → bitAt v k = false)
      ∧ (find_next v i = npos → ∀ k, i < k → k < v.num_bits → bitAt v k = false)
      ∧ (1 ≤ v.num_bits → find_next v (v.num_bits - 1) = npos)
      ∧ find_next v npos = npos := by
  have hmain := scanUp_spec v hnp (v.num_bits - (i + 1)) (i + 1) (by omega)
  refine ⟨?_, ?_, ?_, ?_⟩
  · intro hne
    obtain ⟨h1, h2, h3, h4⟩ := hmain.1 hne
    exact ⟨by unfold find_next; omega, h2, h3, fun k hk1 hk2 => h4 k (by omega) hk2⟩
  · intro hnps k hk1 hk2
    exact hmain.2 hnps k (by omega) hk2
  · intro hlen
    unfold find_next
    rw [show v.num_bits - 1 + 1 = v.num_bits from by omega, Nat.sub_self]
    rfl
  · unfold find_next
    rw [show v.num_bits - (npos + 1) = 0 from by omega]
    rfl

/-- Witness for C6 on the vector with bits 0 and 2 set: the result of
`find_next 0` carries a set bit, and `find_next` at `npos` stays `npos`. -/
theorem find_next_correct_witness :
    bitAt { bits := [5], num_bits := 3 }
        (find_next { bits := [5], num_bits := 3 } 0) = true
      ∧ find_next { bits := [5], num_bits := 3 } npos = npos :=
  ⟨((find_next_correct { bits := [5], num_bits := 3 } 0 (by decide)).1
      (by decide)).2.2.1,
   (find_next_correct { bits := [5], num_bits := 3 } 0 (by decide)).2.2.2⟩

/-! ### C10 -/

/-- C10 fails on the code as stated: with `lim = 5`, `depth = 1` and
`len = 2 ^ 64 - 1`, the 64-bit sum `depth + len` wraps to 0, so the function
returns `false` and stores `len`, although mathematically `depth + len > lim`
(the claimed return condition) and the claimed bound `depth + *n <= lim`
fails. -/
theorem check_limit_exceeded_overflow_cex :
    check_limit_exceeded 5 1 (2 ^ 64 - 1) = (false, 2 ^ 64 - 1)
      ∧ ¬ (((check_limit_exceeded 5 1 (2 ^ 64 - 1)).1 = true)
            ↔ ((5 : Nat) ≠ 0 ∧ (1 ≥ 5 ∨ 1 + (2 ^ 64 - 1) > 5)))
      ∧ ¬ ((5 : Nat) ≠ 0 → 1 ≤ 5 → 1 + (check_limit_exceeded 5 1 (2 ^ 64 - 1)).2 ≤ 5) := by
  refine ⟨by decide, ?_, ?_⟩
  · intro hiff
    have := hiff.mpr ⟨by decide, Or.inr (by decide)⟩
    rw [show check_limit_exceeded 5 1 (2 ^ 64 - 1) = (false, 2 ^ 64 - 1) from by decide] at this
    exact Bool.false_ne_true this
  · intro himp
    have := himp (by decide) (by decide)
    rw [show check_limit_exceeded 5 1 (2 ^ 64 - 1) = (false, 2 ^ 64 - 1) from by decide] at this
    omega

/-- C10 amended: for all 64-bit quantities whose sum `depth + len` does not
overflow, `check_limit_exceeded` stores into `*n` a value at most `len`; when
`lim = 0` it stores `len` and returns `false`; when `lim ≠ 0` and
`depth ≤ lim` the stored value satisfies `depth + *n ≤ lim`; and it returns
`true` iff `lim ≠ 0` and either `depth ≥ lim` or `depth + len > lim`. -/
theorem check_limit_exceeded_spec (lim depth len : Nat)
    (hof : depth + len < 2 ^ 64) :
    (check_limit_exceeded lim depth len).2 ≤ len
      ∧ (lim = 0 → check_limit_exceeded lim depth len = (false, len))
      ∧ (lim ≠ 0 → depth ≤ lim → depth + (check_limit_exceeded lim depth len).2 ≤ lim)
      ∧ ((check_limit_exceeded lim depth len).1 = true
          ↔ (lim ≠ 0 ∧ (depth ≥ lim ∨ depth + len > lim))) := by
  unfold check_limit_exceeded
  rw [Nat.mod_eq_of_lt hof]
  split_ifs with h1 h2 h3 <;> (simp_all; try omega)

/-- Witness for C10 at `lim = 5`, `depth = 3`, `len = 10`. -/
theorem check_limit_exceeded_spec_witness :
    3 + (check_limit_exceeded 5 3 10).2 ≤ 5 :=
  (check_limit_exceeded_spec 5 3 10 (by decide)).2.2.1 (by decide) (by decide)
